import Mathlib

/-!
Verification development for the spacebot repository.

Shallow embedding of the memory store (`src/memory/store.rs`), hybrid search
(`src/memory/search.rs`), the cron scheduler timer loop
(`src/cron/scheduler.rs`), the status-truncation tool
(`src/tools/set_status.rs`) and the ingestion directory scan
(`src/agent/ingestion.rs`).

Modelling conventions:
* `f32`/`f64` values (importance, weights, scores) are modelled as `ℚ`,
  i.e. the arithmetic is exact where the source uses IEEE floats.
* SQLite tables are modelled as Lean lists of records; a SQL `UPDATE ... WHERE`
  is a `List.map` guarded by the `WHERE` predicate, and `rows_affected` is the
  count of rows matching the predicate.
* Rust's stable `sort_by` is modelled by `List.insertionSort`, which is also
  stable, applied to the comparator's reflexive closure.
* `HashSet` membership is modelled by membership in a `List String`;
  `HashMap` entry insertion is modelled by an association list keyed by id
  (the properties proved do not depend on iteration order, and the final
  result is sorted by score anyway).
* Timestamps are `Nat` (seconds, or an abstract monotone clock).
-/

namespace Spacebot

/-- Memory type tags, from `src/memory/types.rs` via `parse_memory_type` in
`src/memory/store.rs`. -/
inductive MemoryType where
  | Fact | Preference | Decision | Identity | Event | Observation | Goal
deriving DecidableEq, Repr

/-- Relation type tags on associations, from `parse_relation_type` in
`src/memory/store.rs`. -/
inductive RelationType where
  | RelatedTo | Updates | Contradicts | CausedBy | ResultOf | PartOf
deriving DecidableEq, Repr

/-- A memory row, mirroring the `memories` table columns used by
`row_to_memory` in `src/memory/store.rs`. Floats are modelled as `ℚ`. -/
structure Memory where
  id : String
  content : String
  memoryType : MemoryType
  importance : ℚ
  createdAt : Nat
  updatedAt : Nat
  lastAccessedAt : Nat
  accessCount : Nat
  source : Option String
  channelId : Option String
  forgotten : Bool
deriving DecidableEq, Repr

/-- An association row (`associations` table), mirroring `row_to_association`
in `src/memory/store.rs`. -/
structure Association where
  id : String
  source_id : String
  target_id : String
  relation_type : RelationType
  weight : ℚ
  created_at : Nat
deriving DecidableEq, Repr

/-- The memory store state: the `memories` table as a list of rows. -/
abbrev Store := List Memory

/-- Embedding of `MemoryStore::load` (`src/memory/store.rs`):
`SELECT ... FROM memories WHERE id = ?` via `fetch_optional`. -/
def load (store : Store) (id : String) : Option Memory :=
  store.find? (fun m => m.id == id)

/-- Embedding of `MemoryStore::forget` (`src/memory/store.rs` lines 139-150):
`UPDATE memories SET forgotten = 1, updated_at = ? WHERE id = ? AND forgotten = 0`,
returning `rows_affected() > 0`. The `WHERE` clause touches only rows with the
given id that are not yet forgotten. -/
def forgetRow (id : String) (now : Nat) (m : Memory) : Memory :=
  if m.id = id ∧ m.forgotten = false then
    { m with forgotten := true, updatedAt := now }
  else m

/-- Result of `forget`: the boolean `rows_affected() > 0` and the updated
table. -/
def forget (store : Store) (id : String) (now : Nat) : Bool × Store :=
  (store.any (fun m => m.id == id && !m.forgotten),
   store.map (forgetRow id now))

lemma forgetRow_of_forgotten {m : Memory} (id : String) (now : Nat)
    (h : m.id = id → m.forgotten = true) : forgetRow id now m = m := by
  unfold forgetRow
  by_cases hid : m.id = id
  · have := h hid
    simp [hid, this]
  · simp [hid]

lemma forget_forgotten_mem {store : Store} {id : String} {now : Nat} {m : Memory}
    (hm : m ∈ (forget store id now).2) (hid : m.id = id) : m.forgotten = true := by
  unfold forget at hm
  simp only [List.mem_map] at hm
  obtain ⟨m₀, _, rfl⟩ := hm
  unfold forgetRow at hid ⊢
  by_cases h : m₀.id = id ∧ m₀.forgotten = false
  · simp [h]
  · simp only [if_neg h] at hid ⊢
    rcases Bool.eq_false_or_eq_true m₀.forgotten with ht | hf
    · exact ht
    · exact absurd ⟨hid, hf⟩ h

lemma forget_twice_snd (store : Store) (id : String) (t₁ t₂ : Nat) :
    (forget (forget store id t₁).2 id t₂).2 = (forget store id t₁).2 := by
  show ((forget store id t₁).2).map (forgetRow id t₂) = (forget store id t₁).2
  have h : ∀ m ∈ (forget store id t₁).2, forgetRow id t₂ m = m := by
    intro m hm
    exact forgetRow_of_forgotten id t₂ (fun hid => forget_forgotten_mem hm hid)
  have h1 : ((forget store id t₁).2).map (forgetRow id t₂)
      = ((forget store id t₁).2).map (fun m => m) := List.map_congr_left h
  rw [h1, List.map_id']

lemma forget_fst_false {store : Store} {id : String} {now : Nat}
    (h : ∀ m ∈ store, m.id = id → m.forgotten = true) :
    (forget store id now).1 = false := by
  unfold forget
  simp only
  rw [List.any_eq_false]
  intro m hm
  simp only [Bool.and_eq_true, beq_iff_eq, Bool.not_eq_eq_eq_not, Bool.not_true, not_and]
  intro hid
  simp [h m hm hid]

lemma forget_fst_true {store : Store} {id : String} {now : Nat} {m : Memory}
    (hm : m ∈ store) (hid : m.id = id) (hf : m.forgotten = false) :
    (forget store id now).1 = true := by
  unfold forget
  simp only
  rw [List.any_eq_true]
  exact ⟨m, hm, by simp [hid, hf]⟩

/-- C7: for a stored, not-yet-forgotten memory, the first `forget(id)` returns
`true`; the second `forget(id)` returns `false` and leaves the table — every
row and every field, `updated_at` included — exactly as it was after the
first call. -/
theorem forget_idempotent (store : Store) (id : String) (t₁ t₂ : Nat)
    (m : Memory) (hm : m ∈ store) (hid : m.id = id) (hf : m.forgotten = false) :
    (forget store id t₁).1 = true ∧
    forget (forget store id t₁).2 id t₂ = (false, (forget store id t₁).2) := by
  refine ⟨forget_fst_true hm hid hf, ?_⟩
  have h2 := forget_twice_snd store id t₁ t₂
  have h1 : (forget (forget store id t₁).2 id t₂).1 = false :=
    forget_fst_false (fun m' hm' hid' => forget_forgotten_mem hm' hid')
  exact Prod.ext h1 h2

/-- Concrete check of `forget_idempotent` on a one-row store. -/
theorem forget_idempotent_witness :
    (forget [{ id := "m1", content := "c", memoryType := .Fact, importance := 1/2,
               createdAt := 0, updatedAt := 0, lastAccessedAt := 0, accessCount := 0,
               source := none, channelId := none, forgotten := false }] "m1" 5).1 = true :=
  (forget_idempotent _ "m1" 5 7 _ (List.mem_singleton.mpr rfl) rfl rfl).1

/-! ## Status truncation (`src/tools/set_status.rs`) -/

/-- Whitespace test used by `rfind(char::is_whitespace)` in
`SetStatusTool::call`; the ASCII whitespace characters (space, tab, LF, VT,
FF, CR). Strings are modelled as lists of one-byte characters, so byte
indices and character indices coincide. -/
def statusWhitespace (c : Char) : Bool :=
  c == ' ' || c == '\t' || c == '\n' || c == '\r' || c == Char.ofNat 11 || c == Char.ofNat 12

/-- Index of the last character satisfying `p`, i.e. Rust `str::rfind` on a
byte-indexed view of the string. -/
def rfindIdx (p : Char → Bool) : List Char → Option Nat
  | [] => none
  | c :: rest =>
    match rfindIdx p rest with
    | some j => some (j + 1)
    | none => if p c then some 0 else none

lemma rfindIdx_none_iff (p : Char → Bool) (l : List Char) :
    rfindIdx p l = none ↔ ∀ c ∈ l, p c = false := by
  induction l with
  | nil => simp [rfindIdx]
  | cons c rest ih =>
    unfold rfindIdx
    cases hres : rfindIdx p rest with
    | some j =>
      simp only
      constructor
      · intro h; cases h
      · intro hall
        have hnone : rfindIdx p rest = none :=
          ih.mpr (fun c' hc' => hall c' (List.mem_cons_of_mem _ hc'))
        rw [hres] at hnone; cases hnone
    | none =>
      by_cases hp : p c
      · simp only [hp, if_true]
        constructor
        · intro h; cases h
        · intro hall
          have := hall c (List.mem_cons_self _ _)
          rw [hp] at this; cases this
      · have hp' : p c = false := Bool.eq_false_iff.mpr hp
        simp only [hp', Bool.false_eq_true, if_false, true_iff, List.mem_cons]
        intro c' hc'
        rcases hc' with rfl | hmem
        · exact hp'
        · exact (ih.mp hres) c' hmem

lemma rfindIdx_some_spec (p : Char → Bool) (l : List Char) (i : Nat)
    (h : rfindIdx p l = some i) :
    i < l.length ∧ p (l.getD i ' ') = true ∧
      ∀ j, i < j → j < l.length → p (l.getD j ' ') = false := by
  induction l generalizing i with
  | nil => cases h
  | cons c rest ih =>
    unfold rfindIdx at h
    cases hres : rfindIdx p rest with
    | some j =>
      rw [hres] at h
      simp only [Option.some.injEq] at h
      subst h
      obtain ⟨hlt, hp, hafter⟩ := ih j hres
      refine ⟨by simpa using Nat.succ_lt_succ hlt, by simpa using hp, ?_⟩
      intro k hk hklen
      cases k with
      | zero => cases hk
      | succ k2 =>
        have : j < k2 := Nat.lt_of_succ_lt_succ hk
        have hlen2 : k2 < rest.length := Nat.lt_of_succ_lt_succ (by simpa using hklen)
        simpa using hafter k2 this hlen2
    | none =>
      rw [hres] at h
      by_cases hp : p c
      · rw [if_pos hp] at h
        simp only [Option.some.injEq] at h
        subst h
        refine ⟨Nat.succ_pos _, by simpa using hp, ?_⟩
        intro k hk hklen
        cases k with
        | zero => cases hk
        | succ k2 =>
          have hlen2 : k2 < rest.length := Nat.lt_of_succ_lt_succ (by simpa using hklen)
          have hmem : rest.getD k2 ' ' ∈ rest := by
            rw [List.getD_eq_getElem rest ' ' hlen2]
            exact List.getElem_mem hlen2
          simpa using (rfindIdx_none_iff p rest).mp hres _ hmem
      · rw [if_neg hp] at h
        cases h

/-- The `"..."` suffix appended on truncation. -/
def statusDots : List Char := ['.', '.', '.']

/-- Embedding of the status-capping logic in `SetStatusTool::call`
(`src/tools/set_status.rs` lines 86-90): when the text exceeds 256 bytes,
keep the prefix up to the last whitespace within the first 256 bytes
(`rfind(char::is_whitespace).unwrap_or(256)`) and append `"..."`; shorter
text is kept verbatim. -/
def setStatusTruncate (s : List Char) : List Char :=
  if 256 < s.length then
    s.take ((rfindIdx statusWhitespace (s.take 256)).getD 256) ++ statusDots
  else s

/-- C8 (amended): text of at most 256 bytes is kept verbatim; longer text is
cut at the last whitespace inside the first 256 bytes when one exists
(the whitespace itself is dropped), and hard-cut at byte 256 when the first
256 bytes contain no whitespace; either way `"..."` is appended. -/
theorem set_status_truncation (s : List Char) :
    (s.length ≤ 256 → setStatusTruncate s = s) ∧
    (256 < s.length →
      (rfindIdx statusWhitespace (s.take 256) = none →
        (∀ c ∈ s.take 256, statusWhitespace c = false) ∧
        setStatusTruncate s = s.take 256 ++ statusDots) ∧
      (∀ i, rfindIdx statusWhitespace (s.take 256) = some i →
        setStatusTruncate s = s.take i ++ statusDots ∧ i < 256 ∧
        statusWhitespace ((s.take 256).getD i ' ') = true ∧
        ∀ j, i < j → j < 256 → statusWhitespace ((s.take 256).getD j ' ') = false)) := by
  constructor
  · intro hle
    unfold setStatusTruncate
    rw [if_neg (by omega)]
  · intro hlong
    have hlen256 : (s.take 256).length = 256 := by
      rw [List.length_take]
      omega
    constructor
    · intro hnone
      refine ⟨(rfindIdx_none_iff _ _).mp hnone, ?_⟩
      unfold setStatusTruncate
      rw [if_pos hlong, hnone]
      rfl
    · intro i hsome
      obtain ⟨hi, hp, hafter⟩ := rfindIdx_some_spec _ _ _ hsome
      rw [hlen256] at hi
      refine ⟨?_, hi, hp, ?_⟩
      · unfold setStatusTruncate
        rw [if_pos hlong, hsome]
        rfl
      · intro j hij hj
        exact hafter j hij (by omega)

/-- Concrete check of `set_status_truncation`: a short status is kept
verbatim, and a long status with a whitespace is cut at that whitespace. -/
theorem set_status_truncation_witness :
    setStatusTruncate ['h', 'i'] = ['h', 'i'] :=
  (set_status_truncation ['h', 'i']).1 (by decide)

/-- Formalisation of C8 as stated: the published status is the input
truncated at a whitespace boundary within the first 256 characters
(the cut position carries a whitespace character) and suffixed `"..."`. -/
def truncatedAtWhitespaceBoundary (input output : List Char) : Prop :=
  ∃ i, i ≤ 256 ∧ output = input.take i ++ statusDots ∧
    statusWhitespace (input.getD i ' ') = true

set_option maxRecDepth 40000 in
/-- C8 counterexample: 257 bytes of `a` (no whitespace anywhere) exceed the
cap, yet the kept status is a hard cut at byte 256, not a cut at a whitespace
boundary: the claim's description fails on this input. -/
theorem set_status_claim_counterexample :
    256 < (List.replicate 257 'a').length ∧
    ¬ truncatedAtWhitespaceBoundary (List.replicate 257 'a')
        (setStatusTruncate (List.replicate 257 'a')) := by
  refine ⟨by rw [List.length_replicate]; omega, ?_⟩
  rintro ⟨i, hle, hout, hws⟩
  have hcomp : setStatusTruncate (List.replicate 257 'a')
      = List.replicate 256 'a' ++ statusDots := by decide
  rw [hcomp] at hout
  have htake : (List.replicate 257 'a').take i = List.replicate 256 'a' :=
    List.append_cancel_right hout.symm
  have hlen : i = 256 := by
    have h := congrArg List.length htake
    rw [List.length_take, List.length_replicate, List.length_replicate] at h
    omega
  subst hlen
  have hgd : (List.replicate 257 'a').getD 256 ' ' = 'a' := by decide
  rw [hgd] at hws
  cases hws

/-! ## Ingestion directory scan (`src/agent/ingestion.rs`) -/

/-- A directory entry as seen by `scan_ingest_dir`: file name, whether the
path is a regular file, and the modification time (`None` models a failed
metadata read, which Rust's `Option<SystemTime>` orders before every
`Some`). -/
structure DirEntry where
  name : String
  isFile : Bool
  mtime : Option Nat
deriving DecidableEq, Repr

/-- Characters after the last `.` of a file name, `none` when it has no `.`
(helper for Rust `Path::extension`). -/
def extSplit : List Char → Option (List Char)
  | [] => none
  | c :: rest =>
    match extSplit rest with
    | some e => some e
    | none => if c = '.' then some rest else none

/-- Embedding of Rust `Path::extension` on a bare file name: the part after
the last `.`, where a leading `.` (hidden-file style) does not count as a
separator. -/
def rustExtension (name : List Char) : Option (List Char) :=
  match name with
  | '.' :: rest => extSplit rest
  | l => extSplit l

/-- ASCII lowercasing of one character (model of `str::to_lowercase` for the
ASCII file suffixes compared here). -/
def lowerChar (c : Char) : Char :=
  if 65 ≤ c.toNat ∧ c.toNat ≤ 90 then Char.ofNat (c.toNat + 32) else c

/-- The suffix allow-list matched in `is_text_file`
(`src/agent/ingestion.rs` lines 125-134), including `markdown`. -/
def textSuffixes : List (List Char) :=
  ["txt", "md", "markdown", "json", "jsonl", "csv", "tsv", "log",
   "xml", "yaml", "yml", "toml", "rst", "org", "html", "htm"].map String.data

/-- Embedding of `is_text_file` (`src/agent/ingestion.rs` lines 119-135):
a name with no extension is treated as text; otherwise the lowercased
extension must be on the allow-list. -/
def is_text_file (name : String) : Bool :=
  match rustExtension name.data with
  | none => true
  | some e => textSuffixes.contains (e.map lowerChar)

/-- Hidden-file test: the name starts with `.` (skip branch of
`scan_ingest_dir`). -/
def isHidden (name : String) : Bool :=
  name.data.head? == some '.'

/-- Selection predicate of `scan_ingest_dir`: regular file, not hidden,
and `is_text_file`. -/
def ingestEligible (e : DirEntry) : Bool :=
  e.isFile && !(isHidden e.name) && is_text_file e.name

/-- Order used by the final `files.sort_by` in `scan_ingest_dir`: ascending
`Option<SystemTime>` with `None` first. -/
def mtimeLe : Option Nat → Option Nat → Bool
  | none, _ => true
  | some _, none => false
  | some a, some b => a ≤ b

/-- Comparator relation on entries for the modification-time sort. -/
def scanLe (a b : DirEntry) : Prop := mtimeLe a.mtime b.mtime = true

instance : DecidableRel scanLe :=
  fun a b => inferInstanceAs (Decidable (_ = true))

instance : IsTotal DirEntry scanLe where
  total a b := by
    unfold scanLe
    cases ha : a.mtime <;> cases hb : b.mtime <;> simp [mtimeLe] <;> omega

instance : IsTrans DirEntry scanLe where
  trans a b c := by
    unfold scanLe
    cases a.mtime <;> cases b.mtime <;> cases c.mtime <;> simp [mtimeLe] <;> omega

/-- Embedding of `scan_ingest_dir` (`src/agent/ingestion.rs` lines 77-116):
keep non-hidden regular files passing `is_text_file`, then stable-sort by
modification time ascending (Rust's stable `sort_by`, modelled by
`List.insertionSort`). -/
def scan_ingest_dir (entries : List DirEntry) : List DirEntry :=
  List.insertionSort scanLe (entries.filter ingestEligible)

/-- C9 (amended): a cycle selects exactly the non-hidden regular files whose
lowercased suffix is one of txt/md/markdown/json/jsonl/csv/tsv/log/xml/yaml/
yml/toml/rst/org/html/htm or that have no suffix at all (files with any
other suffix are skipped), and processes them sorted ascending by
modification time. -/
theorem ingestion_scan (entries : List DirEntry) :
    (∀ e, e ∈ scan_ingest_dir entries ↔ e ∈ entries ∧ ingestEligible e = true) ∧
    (scan_ingest_dir entries).Pairwise scanLe := by
  constructor
  · intro e
    unfold scan_ingest_dir
    rw [List.mem_insertionSort, List.mem_filter]
  · exact List.sorted_insertionSort scanLe _

/-- Concrete check of `ingestion_scan`: a plain `.txt` file is selected. -/
theorem ingestion_scan_witness :
    (⟨"a.txt", true, some 5⟩ : DirEntry) ∈ scan_ingest_dir [⟨"a.txt", true, some 5⟩] :=
  ((ingestion_scan [⟨"a.txt", true, some 5⟩]).1 _).mpr ⟨by decide, by decide⟩

/-- C9's suffix list as stated in the claim (no `markdown`). -/
def claimSuffixes : List (List Char) :=
  ["txt", "md", "json", "jsonl", "csv", "tsv", "log",
   "xml", "yaml", "yml", "toml", "rst", "org", "html", "htm"].map String.data

/-- Formalisation of C9 as stated: non-hidden regular files are selected when
their suffix is on the claim's list, and files with an unknown suffix (one
not on the list, or no suffix) are treated as text as well. -/
def claimedIngestSelect (e : DirEntry) : Bool :=
  e.isFile && !(isHidden e.name) &&
    (match rustExtension e.name.data with
     | none => true
     | some x =>
        claimSuffixes.contains (x.map lowerChar)
          || !(claimSuffixes.contains (x.map lowerChar)))

/-- C9 counterexample: `image.png` is a non-hidden regular file with an
unknown suffix, so the claim selects it, but `scan_ingest_dir` skips it
(its own unit test asserts `!is_text_file("image.png")`); moreover
`notes.markdown` is selected by the code though `markdown` is missing from
the claim's suffix list. -/
theorem ingestion_selection_counterexample :
    claimedIngestSelect ⟨"image.png", true, some 0⟩ = true ∧
    scan_ingest_dir [⟨"image.png", true, some 0⟩] = [] ∧
    is_text_file "image.png" = false ∧
    is_text_file "notes.markdown" = true := by decide

/-! ## Cron scheduler timer loop (`src/cron/scheduler.rs`) -/

/-- Circuit-breaker threshold (`src/cron/scheduler.rs` line 105). -/
def MAX_CONSECUTIVE_FAILURES : Nat := 3

/-- Embedding of the first-tick delay computed by `start_timer`
(`src/cron/scheduler.rs` lines 196-216): sub-daily intervals that divide
86 400 are aligned to the next UTC boundary of the interval; all other
intervals start one interval after now. -/
def first_tick_delay (interval_secs now_unix : Nat) : Nat :=
  if interval_secs < 86400 ∧ 86400 % interval_secs = 0 then
    if now_unix % interval_secs = 0 then interval_secs
    else interval_secs - now_unix % interval_secs
  else interval_secs

/-- Tick times produced by `tokio::time::interval_at(first_tick, interval)`:
the n-th tick fires at the first tick plus n intervals. -/
def tick_time (interval_secs now_unix n : Nat) : Nat :=
  (now_unix + first_tick_delay interval_secs now_unix) + n * interval_secs

/-- C5: for an interval that divides 86 400 and is below it, the first tick is
the least UTC multiple of the interval strictly after registration time, and
the n-th subsequent tick adds n intervals; any other interval first ticks at
now + interval. -/
theorem cron_first_tick_alignment (interval_secs now_unix : Nat)
    (hpos : 0 < interval_secs) :
    (interval_secs ∣ 86400 → interval_secs < 86400 →
      interval_secs ∣ tick_time interval_secs now_unix 0 ∧
      now_unix < tick_time interval_secs now_unix 0 ∧
      (∀ u, interval_secs ∣ u → now_unix < u →
        tick_time interval_secs now_unix 0 ≤ u) ∧
      (∀ n, tick_time interval_secs now_unix n
        = tick_time interval_secs now_unix 0 + n * interval_secs)) ∧
    (¬(interval_secs ∣ 86400 ∧ interval_secs < 86400) →
      tick_time interval_secs now_unix 0 = now_unix + interval_secs) := by
  have hmul0 : ∀ n, tick_time interval_secs now_unix n
      = tick_time interval_secs now_unix 0 + n * interval_secs := by
    intro n
    simp [tick_time]
  constructor
  · intro hdvd hlt
    have hmod : 86400 % interval_secs = 0 := Nat.eq_zero_of_dvd_of_lt
      ((Nat.dvd_mod_iff dvd_rfl).mpr hdvd) (Nat.mod_lt _ hpos)
    have hcond : interval_secs < 86400 ∧ 86400 % interval_secs = 0 := ⟨hlt, hmod⟩
    have hdm := Nat.div_add_mod now_unix interval_secs
    by_cases hr : now_unix % interval_secs = 0
    · have hft : tick_time interval_secs now_unix 0 = now_unix + interval_secs := by
        simp [tick_time, first_tick_delay, hcond, hr]
      have hdnow : interval_secs ∣ now_unix := Nat.dvd_of_mod_eq_zero hr
      refine ⟨?_, ?_, ?_, hmul0⟩
      · rw [hft]; exact Dvd.dvd.add hdnow dvd_rfl
      · rw [hft]; omega
      · intro u hu hgt
        rw [hft]
        obtain ⟨k, rfl⟩ := hu
        obtain ⟨m, rfl⟩ := hdnow
        have hmk : m < k := by
          by_contra hle
          push_neg at hle
          exact absurd (Nat.mul_le_mul_left interval_secs hle) (by omega)
        calc interval_secs * m + interval_secs
            = interval_secs * (m + 1) := by ring
          _ ≤ interval_secs * k := Nat.mul_le_mul_left _ hmk
    · have hrlt : now_unix % interval_secs < interval_secs := Nat.mod_lt _ hpos
      have hft : tick_time interval_secs now_unix 0
          = now_unix + (interval_secs - now_unix % interval_secs) := by
        simp [tick_time, first_tick_delay, hcond, hr]
      have hftq : tick_time interval_secs now_unix 0
          = interval_secs * (now_unix / interval_secs + 1) := by
        rw [hft, Nat.mul_succ]
        omega
      refine ⟨?_, ?_, ?_, hmul0⟩
      · rw [hftq]; exact Dvd.intro _ rfl
      · rw [hft]; omega
      · intro u hu hgt
        rw [hftq]
        obtain ⟨k, rfl⟩ := hu
        have hqk : now_unix / interval_secs < k := by
          by_contra hle
          push_neg at hle
          have h1 : interval_secs * k ≤ interval_secs * (now_unix / interval_secs) :=
            Nat.mul_le_mul_left interval_secs hle
          omega
        exact Nat.mul_le_mul_left _ hqk
  · intro h
    have hneg : ¬(interval_secs < 86400 ∧ 86400 % interval_secs = 0) := by
      rintro ⟨h1, h2⟩
      exact h ⟨Nat.dvd_of_mod_eq_zero h2, h1⟩
    simp [tick_time, first_tick_delay, hneg]

/-- Concrete check of `cron_first_tick_alignment`: a 1800 s job registered at
unix time 1000 first fires at 1800, the next multiple of 1800. -/
theorem cron_first_tick_alignment_witness :
    tick_time 1800 1000 0 = 1800 ∧ (1800 : Nat) ∣ tick_time 1800 1000 0 ∧
    1000 < tick_time 1800 1000 0 := by
  have h := (cron_first_tick_alignment 1800 1000 (by decide)).1
    (by decide) (by decide)
  exact ⟨by decide, h.1, h.2.1⟩

/-- Embedding of the active-hours check in the timer loop
(`src/cron/scheduler.rs` lines 242-249): plain window `start ≤ h < end` when
`start ≤ end`, midnight-wrapped window `h ≥ start ∨ h < end` otherwise. -/
def in_active_window (startH endH currentHour : Nat) : Bool :=
  if startH ≤ endH then decide (startH ≤ currentHour) && decide (currentHour < endH)
  else decide (startH ≤ currentHour) || decide (currentHour < endH)

/-- In-memory cron job fields read or written by one timer-loop iteration. -/
structure LoopJob where
  enabled : Bool
  run_once : Bool
  active_hours : Option (Nat × Nat)
  consecutive_failures : Nat
deriving DecidableEq, Repr

/-- State threaded through a job's timer loop: the jobs-map entry (`none`
when the job was removed), the persisted `enabled` flag in the cron store,
whether the loop has exited (`break`), and how many times `run_cron_job` has
run. -/
structure LoopState where
  job : Option LoopJob
  persistedEnabled : Bool
  broken : Bool
  executions : Nat
deriving DecidableEq, Repr

/-- One timer tick's environment: the local-clock hour read by the
active-hours check and whether `run_cron_job` would succeed. -/
structure TickInput where
  currentHour : Nat
  succeeded : Bool
deriving DecidableEq, Repr

/-- Job-body part of one loop iteration (`src/cron/scheduler.rs` lines
262-327): on success reset `consecutive_failures`; on failure increment it
and, at `MAX_CONSECUTIVE_FAILURES`, disable the job, persist the disabled
state and break; a `run_once` job disables, persists and breaks after any
completion attempt. -/
def tickExec (j : LoopJob) (succeeded : Bool) (st : LoopState) : LoopState :=
  if succeeded then
    if j.run_once then
      { st with
        executions := st.executions + 1,
        job := some { j with consecutive_failures := 0, enabled := false },
        persistedEnabled := false, broken := true }
    else
      { st with
        executions := st.executions + 1,
        job := some { j with consecutive_failures := 0 } }
  else
    if MAX_CONSECUTIVE_FAILURES ≤ j.consecutive_failures + 1 then
      { st with
        executions := st.executions + 1,
        job := some { j with consecutive_failures := j.consecutive_failures + 1, enabled := false },
        persistedEnabled := false, broken := true }
    else if j.run_once then
      { st with
        executions := st.executions + 1,
        job := some { j with consecutive_failures := j.consecutive_failures + 1, enabled := false },
        persistedEnabled := false, broken := true }
    else
      { st with
        executions := st.executions + 1,
        job := some { j with consecutive_failures := j.consecutive_failures + 1 } }

/-- One full iteration of the timer loop (`src/cron/scheduler.rs` lines
223-328): a broken loop never runs again; a missing or disabled job breaks;
a tick outside the active-hours window is skipped without executing. -/
def tick (input : TickInput) (st : LoopState) : LoopState :=
  if st.broken then st
  else
    match st.job with
    | none => { st with broken := true }
    | some j =>
      if j.enabled = false then { st with broken := true }
      else
        match j.active_hours with
        | some (s, e) =>
          if in_active_window s e input.currentHour then tickExec j input.succeeded st
          else st
        | none => tickExec j input.succeeded st

/-- A sequence of timer ticks. -/
def runTicks (inputs : List TickInput) (st : LoopState) : LoopState :=
  inputs.foldl (fun s i => tick i s) st

lemma tick_broken {st : LoopState} (h : st.broken = true) (i : TickInput) :
    tick i st = st := by
  unfold tick
  rw [if_pos h]

lemma runTicks_broken {st : LoopState} (h : st.broken = true) (l : List TickInput) :
    runTicks l st = st := by
  induction l with
  | nil => rfl
  | cons i rest ih =>
    show runTicks rest (tick i st) = st
    rw [tick_broken h, ih]

/-- C2: a job that keeps failing executes exactly `MAX_CONSECUTIVE_FAILURES`
(= 3) times: after the third consecutive failure the jobs-map entry is
disabled with failure count 3, the disabled state is persisted to the store,
and the loop has broken, so any further ticks (a fourth failure tick in
particular) never execute the job. -/
theorem cron_circuit_breaker (k hour : Nat) (hk : 3 ≤ k) :
    runTicks (List.replicate k ⟨hour, false⟩)
        ⟨some ⟨true, false, none, 0⟩, true, false, 0⟩
      = ⟨some ⟨false, false, none, 3⟩, false, true, 3⟩ := by
  obtain ⟨m, rfl⟩ : ∃ m, k = 3 + m := ⟨k - 3, by omega⟩
  rw [List.replicate_add]
  unfold runTicks
  rw [List.foldl_append]
  have h3 : List.foldl (fun s i => tick i s)
      ⟨some ⟨true, false, none, 0⟩, true, false, 0⟩
      (List.replicate 3 (⟨hour, false⟩ : TickInput))
      = ⟨some ⟨false, false, none, 3⟩, false, true, 3⟩ := by
    simp [List.replicate, tick, tickExec, MAX_CONSECUTIVE_FAILURES]
  rw [h3]
  exact runTicks_broken rfl _

/-- Concrete check of `cron_circuit_breaker` with five failing ticks. -/
theorem cron_circuit_breaker_witness :
    runTicks (List.replicate 5 ⟨12, false⟩)
        ⟨some ⟨true, false, none, 0⟩, true, false, 0⟩
      = ⟨some ⟨false, false, none, 3⟩, false, true, 3⟩ :=
  cron_circuit_breaker 5 12 (by decide)

/-- C6 (amended): with `active_hours = (start, end)` the job body runs on a
tick exactly when the current server-local hour lies in `[start, end)`,
where the window wraps midnight exactly when `end < start` (so `end = start`
is an empty window and every tick is skipped without executing). -/
theorem cron_active_hours (j : LoopJob) (st : LoopState) (i : TickInput)
    (s e : Nat) (hjob : st.job = some j) (hactive : j.active_hours = some (s, e))
    (henb : j.enabled = true) (hbr : st.broken = false) :
    (in_active_window s e i.currentHour = true ↔
      ((e < s ∧ (s ≤ i.currentHour ∨ i.currentHour < e)) ∨
       (s ≤ e ∧ s ≤ i.currentHour ∧ i.currentHour < e))) ∧
    (in_active_window s e i.currentHour = false → tick i st = st) ∧
    (in_active_window s e i.currentHour = true →
      tick i st = tickExec j i.succeeded st) := by
  have htick : tick i st = if in_active_window s e i.currentHour
      then tickExec j i.succeeded st else st := by
    unfold tick
    rw [if_neg (by rw [hbr]; exact Bool.false_ne_true), hjob]
    simp only [henb, Bool.true_eq_false, if_false, hactive]
  refine ⟨?_, ?_, ?_⟩
  · unfold in_active_window
    by_cases hse : s ≤ e
    · rw [if_pos hse]
      constructor
      · intro h
        simp only [Bool.and_eq_true, decide_eq_true_eq] at h
        exact Or.inr ⟨hse, h⟩
      · rintro (⟨hlt, _⟩ | ⟨_, h1, h2⟩)
        · omega
        · simp only [Bool.and_eq_true, decide_eq_true_eq]
          exact ⟨h1, h2⟩
    · rw [if_neg hse]
      constructor
      · intro h
        simp only [Bool.or_eq_true, decide_eq_true_eq] at h
        exact Or.inl ⟨by omega, h⟩
      · rintro (⟨_, h⟩ | ⟨hle, _, _⟩)
        · simp only [Bool.or_eq_true, decide_eq_true_eq]
          exact h
        · omega
  · intro hout
    rw [htick, hout]
    rfl
  · intro hin
    rw [htick, hin]
    rfl

/-- Concrete check of `cron_active_hours`: hour 10 inside a 9-17 window runs
the job body. -/
theorem cron_active_hours_witness :
    tick ⟨10, true⟩ ⟨some ⟨true, false, some (9, 17), 0⟩, true, false, 0⟩
      = tickExec ⟨true, false, some (9, 17), 0⟩ true
          ⟨some ⟨true, false, some (9, 17), 0⟩, true, false, 0⟩ :=
  (cron_active_hours ⟨true, false, some (9, 17), 0⟩ _ ⟨10, true⟩ 9 17
    rfl rfl rfl rfl).2.2 (by decide)

/-- Formalisation of C6's window as stated: midnight-wrap when `end ≤ start`
(rather than the code's strict `end < start`). -/
def claimedActiveWindow (startH endH currentHour : Nat) : Bool :=
  if endH ≤ startH then decide (startH ≤ currentHour) || decide (currentHour < endH)
  else decide (startH ≤ currentHour) && decide (currentHour < endH)

/-- C6 counterexample: with `active_hours = (5, 5)` at hour 5 the claim's
window (wrap when `end ≤ start`) contains the hour, but the code's window is
empty, so the tick is skipped and the state is unchanged. -/
theorem cron_active_hours_counterexample :
    claimedActiveWindow 5 5 5 = true ∧ in_active_window 5 5 5 = false ∧
    tick ⟨5, true⟩ ⟨some ⟨true, false, some (5, 5), 0⟩, true, false, 0⟩
      = ⟨some ⟨true, false, some (5, 5), 0⟩, true, false, 0⟩ := by decide

/-! ## Hybrid memory search (`src/memory/search.rs`) -/

/-- Internal scored memory (`struct ScoredMemory` in `src/memory/search.rs`). -/
structure ScoredMemory where
  memory : Memory
  score : ℚ
deriving DecidableEq, Repr

/-- Public search result (`MemorySearchResult` in `src/memory/types.rs`):
memory, fused score, 1-based rank. -/
structure MemorySearchResult where
  memory : Memory
  score : ℚ
  rank : Nat
deriving DecidableEq, Repr

/-- Search configuration (`SearchConfig` in `src/memory/search.rs`). -/
structure SearchConfig where
  max_results_per_source : Nat
  rrf_k : ℚ
  min_score : ℚ
  max_graph_depth : Nat
deriving DecidableEq, Repr

/-- Defaults from `impl Default for SearchConfig`. -/
def defaultSearchConfig : SearchConfig := ⟨50, 60, 0, 2⟩

/-- Embedding of `MemoryStore::get_associations`: rows whose `source_id` or
`target_id` equals the memory id, in table order. -/
def get_associations (assocs : List Association) (memory_id : String) : List Association :=
  assocs.filter (fun a => a.source_id == memory_id || a.target_id == memory_id)

/-- Relation-type multiplier in `traverse_graph`
(`src/memory/search.rs` lines 199-205). -/
def typeMultiplier : RelationType → ℚ
  | .Updates => 3/2
  | .CausedBy => 13/10
  | .ResultOf => 13/10
  | .RelatedTo => 1
  | .Contradicts => 1/2
  | .PartOf => 4/5

/-- Ordering of `get_high_importance`'s SQL
`ORDER BY importance DESC, updated_at DESC`. -/
def importanceOrder (a b : Memory) : Prop :=
  b.importance < a.importance ∨ (b.importance = a.importance ∧ b.updatedAt ≤ a.updatedAt)

instance : DecidableRel importanceOrder :=
  fun a b => inferInstanceAs (Decidable (_ ∨ _))

/-- Embedding of `MemoryStore::get_high_importance`: rows with
`importance >= threshold AND forgotten = 0`, ordered by importance then
`updated_at` descending, limited. -/
def get_high_importance (store : Store) (threshold : ℚ) (limit : Nat) : List Memory :=
  (List.insertionSort importanceOrder
    (store.filter (fun m => decide (threshold ≤ m.importance) && !m.forgotten))).take limit

/-- The neighbour of `current_id` along an association
(`src/memory/search.rs` lines 183-187). -/
def relatedIdOf (a : Association) (currentId : String) : String :=
  if a.source_id = currentId then a.target_id else a.source_id

/-- Whether an association re-enqueues its target
(`src/memory/search.rs` line 212). -/
def expandQueue (a : Association) : Bool :=
  a.relation_type == .RelatedTo || a.relation_type == .PartOf

/-- Mutable state of `traverse_graph`: visited set, BFS queue of
`(memory_id, depth)`, accumulated scored results. -/
structure TraverseState where
  visited : List String
  queue : List (String × Nat)
  results : List ScoredMemory
deriving DecidableEq, Repr

/-- Inner `for assoc in associations` loop of `traverse_graph`
(`src/memory/search.rs` lines 181-216): skip already-visited neighbours,
mark the neighbour visited, drop missing or forgotten memories, score
`importance × weight × type_multiplier`, and re-enqueue `related_to`/
`part_of` neighbours at depth + 1. -/
def stepAssocs (store : Store) (currentId : String) (depth : Nat) :
    List Association → TraverseState → TraverseState
  | [], st => st
  | a :: rest, st =>
    if relatedIdOf a currentId ∈ st.visited then
      stepAssocs store currentId depth rest st
    else
      match load store (relatedIdOf a currentId) with
      | none =>
        stepAssocs store currentId depth rest
          { st with visited := relatedIdOf a currentId :: st.visited }
      | some m =>
        if m.forgotten then
          stepAssocs store currentId depth rest
            { st with visited := relatedIdOf a currentId :: st.visited }
        else
          stepAssocs store currentId depth rest
            { visited := relatedIdOf a currentId :: st.visited,
              queue := if expandQueue a
                then st.queue ++ [(relatedIdOf a currentId, depth + 1)]
                else st.queue,
              results := st.results
                ++ [⟨m, m.importance * a.weight * typeMultiplier a.relation_type⟩] }

/-- Outer `while let Some((current_id, depth)) = queue.pop_front()` loop of
`traverse_graph`, with explicit fuel; `traverse_graph` supplies fuel large
enough that the queue always empties first (`traverseLoop_fuel_eq` shows the
result is then fuel-independent, i.e. the loop terminates). Depths beyond
`max_depth` are popped and skipped, matching lines 174-177. -/
def traverseLoop (store : Store) (assocs : List Association) (maxDepth : Nat) :
    Nat → TraverseState → List ScoredMemory
  | 0, st => st.results
  | fuel + 1, st =>
    match st.queue with
    | [] => st.results
    | (currentId, depth) :: rest =>
      if maxDepth < depth then
        traverseLoop store assocs maxDepth fuel { st with queue := rest }
      else
        traverseLoop store assocs maxDepth fuel
          (stepAssocs store currentId depth (get_associations assocs currentId)
            { st with queue := rest })

/-- Every memory id mentioned by an association (source of the termination
measure: visited ids pushed by the traversal all come from here). -/
def assocIdList (assocs : List Association) : List String :=
  assocs.foldr (fun a acc => a.source_id :: a.target_id :: acc) []

/-- Fuel that always outlasts the BFS: one pop for the seed plus two units
per association endpoint. -/
def traverseFuel (assocs : List Association) : Nat :=
  1 + 2 * (assocIdList assocs).length

/-- Embedding of `MemorySearch::traverse_graph`
(`src/memory/search.rs` lines 159-220): BFS from `start_id` appending scored
neighbours to `results`. -/
def traverse_graph (store : Store) (assocs : List Association) (start_id : String)
    (max_depth : Nat) (results : List ScoredMemory) : List ScoredMemory :=
  traverseLoop store assocs max_depth (traverseFuel assocs)
    ⟨[start_id], [(start_id, 0)], results⟩

/-- ASCII-lowercased character data of a string (model of
`str::to_lowercase` for the ASCII content the claims exercise). -/
def lowerString (s : String) : List Char :=
  s.data.map lowerChar

/-- Accumulator-based splitter mirroring `str::split_whitespace`: maximal
nonempty runs of non-whitespace characters. -/
def splitWsAux : List Char → List Char → List (List Char)
  | [], acc => if acc.isEmpty then [] else [acc.reverse]
  | c :: rest, acc =>
    if statusWhitespace c then
      if acc.isEmpty then splitWsAux rest []
      else acc.reverse :: splitWsAux rest []
    else splitWsAux rest (c :: acc)

/-- The whitespace-separated terms of a character list. -/
def splitWhitespaceTerms (s : List Char) : List (List Char) :=
  splitWsAux s []

/-- Contiguous-substring test mirroring `str::contains`. -/
def listContains (hay needle : List Char) : Bool :=
  match hay with
  | [] => needle.isEmpty
  | _ :: rest => needle.isPrefixOf hay || listContains rest needle

/-- Seed/query keyword match in `hybrid_search`
(`src/memory/search.rs` lines 121-123): some lowercased whitespace-split
query term occurs in the lowercased seed content. -/
def seedMatchesQuery (query : String) (content : String) : Bool :=
  (splitWhitespaceTerms (lowerString query)).any
    (fun term => listContains (lowerString content) term)

/-- Graph pass of `hybrid_search` (`src/memory/search.rs` lines 115-132):
for each high-importance seed (importance ≥ 0.8, limit 20) matching the
query, push the seed scored by its importance and traverse its graph. -/
def graphPass (store : Store) (assocs : List Association) (query : String)
    (config : SearchConfig) : List ScoredMemory :=
  (get_high_importance store (4/5) 20).foldl
    (fun acc seed =>
      if seedMatchesQuery query seed.content then
        traverse_graph store assocs seed.id config.max_graph_depth
          (acc ++ [⟨seed, seed.importance⟩])
      else acc) []

/-- Shared shape of the FTS and vector passes
(`src/memory/search.rs` lines 82-113): look up each matched id in the store,
drop missing and forgotten memories, and score via `f`. -/
def collectByLoad (store : Store) (f : ℚ → ℚ) : List (String × ℚ) → List ScoredMemory
  | [] => []
  | (id, s) :: rest =>
    match load store id with
    | some m =>
      if m.forgotten then collectByLoad store f rest
      else ⟨m, f s⟩ :: collectByLoad store f rest
    | none => collectByLoad store f rest

/-- FTS pass: `none` models the `Err` branch (no inverted index yet), which
degrades to empty results. Scores pass through unchanged. -/
def ftsPass (store : Store) (fts : Option (List (String × ℚ))) : List ScoredMemory :=
  match fts with
  | some ms => collectByLoad store (fun s => s) ms
  | none => []

/-- Vector pass: distances convert to similarity `1 - d`; `none` models the
`Err` branch. -/
def vectorPass (store : Store) (vec : Option (List (String × ℚ))) : List ScoredMemory :=
  match vec with
  | some ms => collectByLoad store (fun d => 1 - d) ms
  | none => []

/-- One `rrf_scores.entry(id).or_insert((0.0, memory)).0 += score` step
(`src/memory/search.rs` lines 268-289): add `c` to the first entry with this
key, or append a fresh entry `(id, c, m)` (`0.0 + c = c`). The association
list stands in for the `HashMap`; the properties proved are independent of
iteration order. -/
def bump : List (String × ℚ × Memory) → String → Memory → ℚ → List (String × ℚ × Memory)
  | [], id, m, c => [(id, c, m)]
  | (i, s, mm) :: rest, id, m, c =>
    if i = id then (i, s + c, mm) :: rest
    else (i, s, mm) :: bump rest id m c

/-- Fold one ranked source list into the RRF score map: the element at
0-based position `rank` contributes `1 / (k + (rank + 1))`. -/
def addListRRF (k : ℚ) : Nat → List ScoredMemory → List (String × ℚ × Memory)
    → List (String × ℚ × Memory)
  | _, [], acc => acc
  | rank, sm :: rest, acc =>
    addListRRF k (rank + 1) rest (bump acc sm.memory.id sm.memory (1 / (k + (rank + 1))))

/-- Descending-score comparator of the final
`fused.sort_by(|a, b| b.score.total_cmp(&a.score))`. -/
def scoreOrder (a b : ScoredMemory) : Prop := b.score ≤ a.score

instance : DecidableRel scoreOrder :=
  fun a b => inferInstanceAs (Decidable (_ ≤ _))

instance : IsTotal ScoredMemory scoreOrder :=
  ⟨fun a b => le_total b.score a.score⟩

instance : IsTrans ScoredMemory scoreOrder :=
  ⟨fun _ _ _ h1 h2 => le_trans h2 h1⟩

/-- Embedding of `reciprocal_rank_fusion` (`src/memory/search.rs` lines
258-300): accumulate vector, FTS and graph lists into the score map, then
sort the entries by score descending (stable sort; the `HashMap` iteration
order is modelled as insertion order). -/
def reciprocal_rank_fusion (vector_results fts_results graph_results : List ScoredMemory)
    (k : ℚ) : List ScoredMemory :=
  List.insertionSort scoreOrder
    ((addListRRF k 0 graph_results
        (addListRRF k 0 fts_results
          (addListRRF k 0 vector_results []))).map
      (fun p => ⟨p.2.2, p.2.1⟩))

/-- The `.enumerate().map(...)` step of `hybrid_search` (lines 143-150):
attach 1-based ranks in fused order. -/
def assignRanks : Nat → List ScoredMemory → List MemorySearchResult
  | _, [] => []
  | rank, sm :: rest => ⟨sm.memory, sm.score, rank + 1⟩ :: assignRanks (rank + 1) rest

/-- Embedding of `MemorySearch::hybrid_search`
(`src/memory/search.rs` lines 69-156). The FTS and vector index replies are
inputs (`none` models their `Err` fallback branches); the store and
association table model the SQLite state. After fusion, ranks are assigned,
results below `min_score` are dropped, and the list is truncated to
`max_results_per_source`. -/
def hybrid_search (store : Store) (assocs : List Association)
    (fts : Option (List (String × ℚ))) (vec : Option (List (String × ℚ)))
    (query : String) (config : SearchConfig) : List MemorySearchResult :=
  ((assignRanks 0
      (reciprocal_rank_fusion (vectorPass store vec) (ftsPass store fts)
        (graphPass store assocs query config) config.rrf_k)).filter
    (fun r => decide (config.min_score ≤ r.score))).take config.max_results_per_source

lemma load_eq_some_id {store : Store} {id : String} {m : Memory}
    (h : load store id = some m) : m.id = id := by
  have := List.find?_some h
  simpa using this

lemma collectByLoad_forgotten {store : Store} {f : ℚ → ℚ} :
    ∀ {l : List (String × ℚ)} {sm : ScoredMemory},
      sm ∈ collectByLoad store f l → sm.memory.forgotten = false
  | [], sm, h => by cases h
  | (id, s) :: rest, sm, h => by
    unfold collectByLoad at h
    split at h
    · split at h
      · exact collectByLoad_forgotten h
      · next m _ hf =>
        rcases List.mem_cons.mp h with rfl | hmem
        · simpa using hf
        · exact collectByLoad_forgotten hmem
    · exact collectByLoad_forgotten h

lemma get_high_importance_forgotten {store : Store} {t : ℚ} {n : Nat} {m : Memory}
    (h : m ∈ get_high_importance store t n) : m.forgotten = false := by
  unfold get_high_importance at h
  have h1 := List.take_subset _ _ h
  rw [List.mem_insertionSort, List.mem_filter] at h1
  have := h1.2
  simp only [Bool.and_eq_true, Bool.not_eq_eq_eq_not, Bool.not_true] at this
  exact this.2

lemma stepAssocs_forgotten {store : Store} {currentId : String} {depth : Nat} :
    ∀ {l : List Association} {st : TraverseState},
      (∀ sm ∈ st.results, sm.memory.forgotten = false) →
      ∀ sm ∈ (stepAssocs store currentId depth l st).results,
        sm.memory.forgotten = false
  | [], st, hst, sm, h => hst sm h
  | a :: rest, st, hst, sm, h => by
    unfold stepAssocs at h
    split at h
    · exact stepAssocs_forgotten hst sm h
    · split at h
      · refine stepAssocs_forgotten ?_ sm h
        intro sm2 hsm2
        exact hst sm2 hsm2
      · split at h
        · refine stepAssocs_forgotten ?_ sm h
          intro sm2 hsm2
          exact hst sm2 hsm2
        · next m _ hf =>
          refine stepAssocs_forgotten ?_ sm h
          intro sm2 hsm2
          simp only [List.mem_append, List.mem_singleton] at hsm2
          rcases hsm2 with hmem | rfl
          · exact hst sm2 hmem
          · simpa using hf

lemma traverseLoop_forgotten {store : Store} {assocs : List Association} {maxDepth : Nat} :
    ∀ {fuel : Nat} {st : TraverseState},
      (∀ sm ∈ st.results, sm.memory.forgotten = false) →
      ∀ sm ∈ traverseLoop store assocs maxDepth fuel st,
        sm.memory.forgotten = false
  | 0, _, hres, sm, h => hres sm h
  | fuel + 1, st, hres, sm, h => by
    unfold traverseLoop at h
    split at h
    · exact hres sm h
    · split at h
      · refine traverseLoop_forgotten ?_ sm h
        intro sm2 hsm2
        exact hres sm2 hsm2
      · refine traverseLoop_forgotten ?_ sm h
        refine stepAssocs_forgotten ?_
        intro sm2 hsm2
        exact hres sm2 hsm2

lemma graphPass_forgotten {store : Store} {assocs : List Association}
    {query : String} {config : SearchConfig} :
    ∀ sm ∈ graphPass store assocs query config, sm.memory.forgotten = false := by
  unfold graphPass
  have hgen : ∀ (seeds : List Memory) (acc : List ScoredMemory),
      (∀ m ∈ seeds, m.forgotten = false) →
      (∀ sm ∈ acc, sm.memory.forgotten = false) →
      ∀ sm ∈ seeds.foldl
        (fun acc seed =>
          if seedMatchesQuery query seed.content then
            traverse_graph store assocs seed.id config.max_graph_depth
              (acc ++ [⟨seed, seed.importance⟩])
          else acc) acc,
        sm.memory.forgotten = false := by
    intro seeds
    induction seeds with
    | nil => intro acc _ hacc sm h; exact hacc sm h
    | cons seed rest ih =>
      intro acc hseeds hacc sm h
      rw [List.foldl_cons] at h
      refine ih _ (fun m hm => hseeds m (List.mem_cons_of_mem _ hm)) ?_ sm h
      by_cases hq : seedMatchesQuery query seed.content
      · rw [if_pos hq]
        unfold traverse_graph
        refine traverseLoop_forgotten ?_
        intro sm2 hsm2
        simp only [List.mem_append, List.mem_singleton] at hsm2
        rcases hsm2 with hmem | rfl
        · exact hacc sm2 hmem
        · exact hseeds seed (List.mem_cons_self _ _)
      · rw [if_neg hq]
        exact hacc
  exact hgen _ [] (fun m hm => get_high_importance_forgotten hm) (fun _ h => by cases h)

lemma bump_memory_forall {P : Memory → Prop} :
    ∀ {acc : List (String × ℚ × Memory)} {id : String} {m : Memory} {c : ℚ},
      (∀ e ∈ acc, P e.2.2) → P m → ∀ e ∈ bump acc id m c, P e.2.2
  | [], id, m, c, hacc, hm, e, he => by
    unfold bump at he
    rcases List.mem_singleton.mp he with rfl
    exact hm
  | (i, s, mm) :: rest, id, m, c, hacc, hm, e, he => by
    unfold bump at he
    by_cases hi : i = id
    · rw [if_pos hi] at he
      rcases List.mem_cons.mp he with rfl | hmem
      · exact hacc (i, s, mm) (List.mem_cons_self _ _)
      · exact hacc e (List.mem_cons_of_mem _ hmem)
    · rw [if_neg hi] at he
      rcases List.mem_cons.mp he with rfl | hmem
      · exact hacc (i, s, mm) (List.mem_cons_self _ _)
      · exact bump_memory_forall (fun e2 he2 => hacc e2 (List.mem_cons_of_mem _ he2)) hm e hmem

lemma addListRRF_memory_forall {P : Memory → Prop} {k : ℚ} :
    ∀ {rank : Nat} {xs : List ScoredMemory} {acc : List (String × ℚ × Memory)},
      (∀ e ∈ acc, P e.2.2) → (∀ sm ∈ xs, P sm.memory) →
      ∀ e ∈ addListRRF k rank xs acc, P e.2.2
  | _, [], acc, hacc, _, e, he => hacc e he
  | rank, sm :: rest, acc, hacc, hxs, e, he => by
    unfold addListRRF at he
    refine addListRRF_memory_forall ?_ (fun x hx => hxs x (List.mem_cons_of_mem _ hx)) e he
    exact bump_memory_forall hacc (hxs sm (List.mem_cons_self _ _))

lemma assignRanks_mem :
    ∀ {n : Nat} {l : List ScoredMemory} {r : MemorySearchResult},
      r ∈ assignRanks n l → ∃ sm ∈ l, r.memory = sm.memory ∧ r.score = sm.score
  | n, [], r, h => by cases h
  | n, sm :: rest, r, h => by
    unfold assignRanks at h
    rcases List.mem_cons.mp h with rfl | hmem
    · exact ⟨sm, List.mem_cons_self _ _, rfl, rfl⟩
    · obtain ⟨sm2, hsm2, he⟩ := assignRanks_mem hmem
      exact ⟨sm2, List.mem_cons_of_mem _ hsm2, he⟩

/-- C1: no result of `hybrid_search` carries a forgotten memory — the FTS and
vector passes filter on `!memory.forgotten`, the graph seeds come from a
`forgotten = 0` SQL query, and the traversal skips forgotten memories. -/
theorem hybrid_search_no_forgotten (store : Store) (assocs : List Association)
    (fts vec : Option (List (String × ℚ))) (query : String) (config : SearchConfig)
    (r : MemorySearchResult) (hr : r ∈ hybrid_search store assocs fts vec query config) :
    r.memory.forgotten = false := by
  unfold hybrid_search at hr
  have h1 := List.mem_filter.mp (List.take_subset _ _ hr)
  obtain ⟨sm, hsm, hmem, _⟩ := assignRanks_mem h1.1
  rw [hmem]
  unfold reciprocal_rank_fusion at hsm
  rw [List.mem_insertionSort, List.mem_map] at hsm
  obtain ⟨e, he, rfl⟩ := hsm
  have hfts : ∀ x ∈ ftsPass store fts, x.memory.forgotten = false := by
    cases fts with
    | none => intro x hx; cases hx
    | some l => intro x hx; exact collectByLoad_forgotten hx
  have hvec : ∀ x ∈ vectorPass store vec, x.memory.forgotten = false := by
    cases vec with
    | none => intro x hx; cases hx
    | some l => intro x hx; exact collectByLoad_forgotten hx
  have hnil : ∀ e ∈ ([] : List (String × ℚ × Memory)), e.2.2.forgotten = false := by
    intro e2 he2
    cases he2
  have h2 := @addListRRF_memory_forall (fun mem => mem.forgotten = false)
    config.rrf_k 0 (vectorPass store vec) [] hnil hvec
  have h3 := @addListRRF_memory_forall (fun mem => mem.forgotten = false)
    config.rrf_k 0 (ftsPass store fts) _ h2 hfts
  have h4 := @addListRRF_memory_forall (fun mem => mem.forgotten = false)
    config.rrf_k 0 (graphPass store assocs query config) _ h3
    (fun x hx => graphPass_forgotten x hx)
  exact h4 e he

/-- One-row store used by concrete search checks. -/
def memA : Memory :=
  ⟨"a", "hello", .Fact, 1/2, 0, 0, 0, 0, none, none, false⟩

/-- Concrete check of `hybrid_search_no_forgotten`: a single FTS hit comes
back (score `1/61`, rank 1) and is not forgotten. -/
theorem hybrid_search_no_forgotten_witness :
    (⟨memA, 1/61, 1⟩ : MemorySearchResult).memory.forgotten = false :=
  hybrid_search_no_forgotten [memA] [] (some [("a", 1)]) none "x" defaultSearchConfig
    ⟨memA, 1/61, 1⟩ (by
      norm_num [hybrid_search, reciprocal_rank_fusion, assignRanks, addListRRF, bump,
        vectorPass, ftsPass, collectByLoad, graphPass, get_high_importance, load,
        defaultSearchConfig, memA, List.insertionSort, List.orderedInsert,
        List.filter_cons, List.find?])

/-- Termination measure of the BFS: queue length plus two units for every
association-endpoint id not yet visited. Each loop iteration strictly
decreases it. -/
def traverseMeasure (assocs : List Association) (st : TraverseState) : Nat :=
  st.queue.length + 2 * ((assocIdList assocs).toFinset \ st.visited.toFinset).card

lemma stepAssocs_spec (store : Store) (currentId : String) (depth : Nat)
    (S : Finset String) :
    ∀ (l : List Association) (st : TraverseState),
      (∀ a ∈ l, relatedIdOf a currentId ∈ S) →
      (∀ x ∈ st.visited, x ∈ (stepAssocs store currentId depth l st).visited) ∧
      (stepAssocs store currentId depth l st).queue.length
          + 2 * (S \ (stepAssocs store currentId depth l st).visited.toFinset).card
        ≤ st.queue.length + 2 * (S \ st.visited.toFinset).card
  | [], st, h => ⟨fun x hx => hx, le_refl _⟩
  | a :: rest, st, h => by
    have hrest : ∀ a2 ∈ rest, relatedIdOf a2 currentId ∈ S :=
      fun a2 ha2 => h a2 (List.mem_cons_of_mem _ ha2)
    have hrid : relatedIdOf a currentId ∈ S := h a (List.mem_cons_self _ _)
    unfold stepAssocs
    split
    · exact stepAssocs_spec store currentId depth S rest st hrest
    · next hv =>
      split
      · obtain ⟨hsub, hle⟩ := stepAssocs_spec store currentId depth S rest
          { st with visited := relatedIdOf a currentId :: st.visited } hrest
        refine ⟨fun x hx => hsub x (List.mem_cons_of_mem _ hx), le_trans hle ?_⟩
        simp only [List.toFinset_cons]
        have hc : (S \ insert (relatedIdOf a currentId) st.visited.toFinset).card
            ≤ (S \ st.visited.toFinset).card :=
          Finset.card_le_card
            (Finset.sdiff_subset_sdiff (Finset.Subset.refl _) (Finset.subset_insert _ _))
        omega
      · split
        · obtain ⟨hsub, hle⟩ := stepAssocs_spec store currentId depth S rest
            { st with visited := relatedIdOf a currentId :: st.visited } hrest
          refine ⟨fun x hx => hsub x (List.mem_cons_of_mem _ hx), le_trans hle ?_⟩
          simp only [List.toFinset_cons]
          have hc : (S \ insert (relatedIdOf a currentId) st.visited.toFinset).card
              ≤ (S \ st.visited.toFinset).card :=
            Finset.card_le_card
              (Finset.sdiff_subset_sdiff (Finset.Subset.refl _) (Finset.subset_insert _ _))
          omega
        · obtain ⟨hsub, hle⟩ := stepAssocs_spec store currentId depth S rest
            ⟨relatedIdOf a currentId :: st.visited,
             if expandQueue a then st.queue ++ [(relatedIdOf a currentId, depth + 1)]
             else st.queue,
             st.results ++ [⟨_, _⟩]⟩ hrest
          refine ⟨fun x hx => hsub x (List.mem_cons_of_mem _ hx), le_trans hle ?_⟩
          have hnotin : relatedIdOf a currentId ∉ st.visited.toFinset := by
            rw [List.mem_toFinset]
            exact hv
          have hmem : relatedIdOf a currentId ∈ S \ st.visited.toFinset :=
            Finset.mem_sdiff.mpr ⟨hrid, hnotin⟩
          have hcard1 : 1 ≤ (S \ st.visited.toFinset).card :=
            Finset.card_pos.mpr ⟨_, hmem⟩
          have hcard : (S \ (relatedIdOf a currentId :: st.visited).toFinset).card
              = (S \ st.visited.toFinset).card - 1 := by
            simp only [List.toFinset_cons]
            rw [Finset.sdiff_insert, Finset.card_erase_of_mem hmem]
          by_cases hexp : expandQueue a
          · simp only [hexp, if_true, List.length_append, List.length_singleton, hcard]
            omega
          · simp only [hexp, Bool.false_eq_true, if_false, hcard]
            omega

lemma traverseLoop_nil {store : Store} {assocs : List Association} {maxDepth : Nat}
    (f : Nat) (st : TraverseState) (h : st.queue = []) :
    traverseLoop store assocs maxDepth f st = st.results := by
  cases f with
  | zero => rfl
  | succ f2 =>
    unfold traverseLoop
    split
    · rfl
    · next heq =>
      rw [h] at heq
      cases heq

lemma mem_assocIdList {assocs : List Association} {a : Association} (h : a ∈ assocs) :
    a.source_id ∈ assocIdList assocs ∧ a.target_id ∈ assocIdList assocs := by
  induction assocs with
  | nil => cases h
  | cons a3 rest3 ih3 =>
    unfold assocIdList
    rcases List.mem_cons.mp h with rfl | h2
    · refine ⟨by simp, by simp⟩
    · have h3 := ih3 h2
      simp only [List.foldr_cons, List.mem_cons]
      exact ⟨Or.inr (Or.inr h3.1), Or.inr (Or.inr h3.2)⟩

lemma relatedIdOf_mem_assocIds {assocs : List Association} {currentId : String}
    {a : Association} (h : a ∈ get_associations assocs currentId) :
    relatedIdOf a currentId ∈ (assocIdList assocs).toFinset := by
  have hmem := (List.mem_filter.mp h).1
  have hids := mem_assocIdList hmem
  rw [List.mem_toFinset]
  unfold relatedIdOf
  by_cases hsc : a.source_id = currentId
  · rw [if_pos hsc]
    exact hids.2
  · rw [if_neg hsc]
    exact hids.1

lemma traverseLoop_succ {store : Store} {assocs : List Association} {maxDepth : Nat}
    (f : Nat) (v : List String) (currentId : String) (depth : Nat)
    (rest : List (String × Nat)) (r : List ScoredMemory) :
    traverseLoop store assocs maxDepth (f + 1) ⟨v, (currentId, depth) :: rest, r⟩
      = if maxDepth < depth then
          traverseLoop store assocs maxDepth f ⟨v, rest, r⟩
        else
          traverseLoop store assocs maxDepth f
            (stepAssocs store currentId depth (get_associations assocs currentId)
              ⟨v, rest, r⟩) := rfl

lemma traverseLoop_fuel_eq {store : Store} {assocs : List Association} {maxDepth : Nat}
    (f : Nat) :
    ∀ (g : Nat) (st : TraverseState),
      traverseMeasure assocs st ≤ f → traverseMeasure assocs st ≤ g →
      traverseLoop store assocs maxDepth f st = traverseLoop store assocs maxDepth g st := by
  induction f with
  | zero =>
    intro g st hf _
    have hq : st.queue = [] := by
      unfold traverseMeasure at hf
      have h0 := Nat.le_zero.mp hf
      exact List.length_eq_zero.mp (by omega)
    rw [traverseLoop_nil 0 st hq, traverseLoop_nil g st hq]
  | succ f2 ih =>
    intro g st hf hg
    obtain ⟨v, q, r⟩ := st
    cases q with
    | nil => rw [traverseLoop_nil _ _ rfl, traverseLoop_nil g _ rfl]
    | cons hd rest =>
      obtain ⟨currentId, depth⟩ := hd
      have hmeas1 : 1 ≤ traverseMeasure assocs ⟨v, (currentId, depth) :: rest, r⟩ := by
        unfold traverseMeasure
        simp only [List.length_cons]
        omega
      cases g with
      | zero => omega
      | succ g2 =>
        rw [traverseLoop_succ f2 v currentId depth rest r,
            traverseLoop_succ g2 v currentId depth rest r]
        have hmeasq : traverseMeasure assocs ⟨v, rest, r⟩ + 1
            = traverseMeasure assocs ⟨v, (currentId, depth) :: rest, r⟩ := by
          unfold traverseMeasure
          simp only [List.length_cons]
          omega
        by_cases hd2 : maxDepth < depth
        · rw [if_pos hd2, if_pos hd2]
          exact ih g2 _ (by omega) (by omega)
        · rw [if_neg hd2, if_neg hd2]
          have hspec := stepAssocs_spec store currentId depth
            ((assocIdList assocs).toFinset) (get_associations assocs currentId)
            ⟨v, rest, r⟩ (fun a2 ha2 => relatedIdOf_mem_assocIds ha2)
          have hle := hspec.2
          refine ih g2 _ ?_ ?_
          · unfold traverseMeasure at hle hmeasq hf ⊢
            omega
          · unfold traverseMeasure at hle hmeasq hg ⊢
            omega

lemma stepAssocs_nodup (store : Store) (currentId : String) (depth : Nat) :
    ∀ (l : List Association) (st : TraverseState),
      (st.results.map (fun sm => sm.memory.id)).Nodup →
      (∀ sm ∈ st.results, sm.memory.id ∈ st.visited) →
      ((stepAssocs store currentId depth l st).results.map (fun sm => sm.memory.id)).Nodup ∧
      (∀ sm ∈ (stepAssocs store currentId depth l st).results,
        sm.memory.id ∈ (stepAssocs store currentId depth l st).visited)
  | [], st, h1, h2 => ⟨h1, h2⟩
  | a :: rest, st, h1, h2 => by
    unfold stepAssocs
    split
    · exact stepAssocs_nodup store currentId depth rest st h1 h2
    · next hv =>
      split
      · exact stepAssocs_nodup store currentId depth rest _ h1
          (fun sm hsm => List.mem_cons_of_mem _ (h2 sm hsm))
      · next m hload =>
        split
        · exact stepAssocs_nodup store currentId depth rest _ h1
            (fun sm hsm => List.mem_cons_of_mem _ (h2 sm hsm))
        · next hf =>
          have hid : m.id = relatedIdOf a currentId := load_eq_some_id hload
          refine stepAssocs_nodup store currentId depth rest _ ?_ ?_
          · rw [List.map_append, List.nodup_append]
            refine ⟨h1, List.nodup_singleton _, ?_⟩
            intro x hx hy
            simp only [List.map_singleton, List.mem_singleton] at hy
            subst hy
            obtain ⟨sm2, hsm2, hxid⟩ := List.mem_map.mp hx
            have : m.id ∈ st.visited := hxid ▸ h2 sm2 hsm2
            rw [hid] at this
            exact hv this
          · intro sm hsm
            simp only [List.mem_append, List.mem_singleton] at hsm
            rcases hsm with hmem | rfl
            · exact List.mem_cons_of_mem _ (h2 sm hmem)
            · simp only [hid]
              exact List.mem_cons_self _ _

lemma traverseLoop_nodup {store : Store} {assocs : List Association} {maxDepth : Nat} :
    ∀ (f : Nat) (st : TraverseState),
      (st.results.map (fun sm => sm.memory.id)).Nodup →
      (∀ sm ∈ st.results, sm.memory.id ∈ st.visited) →
      ((traverseLoop store assocs maxDepth f st).map (fun sm => sm.memory.id)).Nodup
  | 0, st, h1, _ => h1
  | f + 1, st, h1, h2 => by
    obtain ⟨v, q, r⟩ := st
    cases q with
    | nil =>
      rw [traverseLoop_nil (f + 1) _ rfl]
      exact h1
    | cons hd rest =>
      obtain ⟨currentId, depth⟩ := hd
      rw [traverseLoop_succ f v currentId depth rest r]
      by_cases hd2 : maxDepth < depth
      · rw [if_pos hd2]
        exact traverseLoop_nodup f _ h1 h2
      · rw [if_neg hd2]
        have hstep := stepAssocs_nodup store currentId depth
          (get_associations assocs currentId) ⟨v, rest, r⟩ h1 h2
        exact traverseLoop_nodup f _ hstep.1 hstep.2

/-- C10: `traverse_graph` terminates on every finite association graph,
cycles included — the result is the stable value reached once the queue
empties, so any fuel at least the visited-set measure produces it — and the
visited set lets each memory id contribute at most one scored entry per
traversal (the appended ids are pairwise distinct). -/
theorem traverse_graph_terminates (store : Store) (assocs : List Association)
    (startId : String) (maxDepth : Nat) (f : Nat)
    (hf : 1 + 2 * ((assocIdList assocs).toFinset \ [startId].toFinset).card ≤ f) :
    traverseLoop store assocs maxDepth f ⟨[startId], [(startId, 0)], []⟩
      = traverse_graph store assocs startId maxDepth [] ∧
    ((traverse_graph store assocs startId maxDepth []).map
      (fun sm => sm.memory.id)).Nodup := by
  have hmeas : traverseMeasure assocs ⟨[startId], [(startId, 0)], []⟩
      = 1 + 2 * ((assocIdList assocs).toFinset \ [startId].toFinset).card := rfl
  constructor
  · unfold traverse_graph
    refine traverseLoop_fuel_eq f (traverseFuel assocs) _ (by omega) ?_
    rw [hmeas]
    unfold traverseFuel
    have hcard : ((assocIdList assocs).toFinset \ [startId].toFinset).card
        ≤ (assocIdList assocs).length :=
      le_trans (Finset.card_le_card Finset.sdiff_subset) (List.toFinset_card_le _)
    omega
  · unfold traverse_graph
    refine traverseLoop_nodup (traverseFuel assocs) _ (by simp) ?_
    intro sm h
    cases h

/-- Concrete check of `traverse_graph_terminates` on a two-node cycle. -/
theorem traverse_graph_terminates_witness :
    traverseLoop [] [⟨"x", "a", "b", .RelatedTo, 1/2, 0⟩, ⟨"y", "b", "a", .RelatedTo, 1/2, 0⟩]
        2 100 ⟨["a"], [("a", 0)], []⟩
      = traverse_graph [] [⟨"x", "a", "b", .RelatedTo, 1/2, 0⟩, ⟨"y", "b", "a", .RelatedTo, 1/2, 0⟩]
          "a" 2 [] :=
  (traverse_graph_terminates [] _ "a" 2 100 (by decide)).1

/-- Total RRF contribution of the occurrences of `id` in one source list
whose first element sits at 0-based position `rank`: each occurrence at
0-based position `p` contributes `1 / (k + (p + 1))`. -/
def occSum (k : ℚ) : Nat → List ScoredMemory → String → ℚ
  | _, [], _ => 0
  | rank, sm :: rest, id =>
    (if sm.memory.id = id then 1 / (k + (rank + 1)) else 0) + occSum k (rank + 1) rest id

/-- Score stored for `id` in the RRF association list (0 when absent). -/
def alistScore : List (String × ℚ × Memory) → String → ℚ
  | [], _ => 0
  | (i, s, _) :: rest, id => if i = id then s else alistScore rest id

/-- Formalisation of C3's per-list formula as stated: a memory contributes
`1 / (k + r)` for `r` the 1-based rank of its (first) appearance in the
list, once per list. -/
def rankContribution (k : ℚ) (l : List ScoredMemory) (id : String) : ℚ :=
  match l.findIdx? (fun sm => sm.memory.id == id) with
  | some i => 1 / (k + (i + 1))
  | none => 0

lemma bump_score :
    ∀ (acc : List (String × ℚ × Memory)) (id : String) (m : Memory) (c : ℚ) (id2 : String),
      alistScore (bump acc id m c) id2
        = alistScore acc id2 + (if id = id2 then c else 0)
  | [], id, m, c, id2 => by
    unfold bump alistScore
    rw [zero_add]
    rfl
  | (i, s, mm) :: rest, id, m, c, id2 => by
    unfold bump
    by_cases hi : i = id
    · rw [if_pos hi]
      unfold alistScore
      by_cases h2 : i = id2
      · rw [if_pos h2, if_pos h2, if_pos (hi ▸ h2)]
      · rw [if_neg h2, if_neg h2, if_neg (hi ▸ h2), add_zero]
    · rw [if_neg hi]
      unfold alistScore
      by_cases h2 : i = id2
      · rw [if_pos h2, if_pos h2, if_neg (fun h => hi (h2.trans h.symm)), add_zero]
      · rw [if_neg h2, if_neg h2]
        exact bump_score rest id m c id2
  termination_by acc => acc.length

lemma addListRRF_score {k : ℚ} :
    ∀ (rank : Nat) (xs : List ScoredMemory) (acc : List (String × ℚ × Memory)) (id : String),
      alistScore (addListRRF k rank xs acc) id
        = alistScore acc id + occSum k rank xs id
  | rank, [], acc, id => by
    unfold addListRRF occSum
    rw [add_zero]
  | rank, sm :: rest, acc, id => by
    unfold addListRRF occSum
    rw [addListRRF_score (rank + 1) rest _ id, bump_score, add_assoc]

lemma bump_km_forall {P : String → Memory → Prop} :
    ∀ {acc : List (String × ℚ × Memory)} {id : String} {m : Memory} {c : ℚ},
      (∀ e ∈ acc, P e.1 e.2.2) → P id m → ∀ e ∈ bump acc id m c, P e.1 e.2.2
  | [], id, m, c, hacc, hm, e, he => by
    unfold bump at he
    rcases List.mem_singleton.mp he with rfl
    exact hm
  | (i, s, mm) :: rest, id, m, c, hacc, hm, e, he => by
    unfold bump at he
    by_cases hi : i = id
    · rw [if_pos hi] at he
      rcases List.mem_cons.mp he with rfl | hmem
      · exact hacc (i, s, mm) (List.mem_cons_self _ _)
      · exact hacc e (List.mem_cons_of_mem _ hmem)
    · rw [if_neg hi] at he
      rcases List.mem_cons.mp he with rfl | hmem
      · exact hacc (i, s, mm) (List.mem_cons_self _ _)
      · exact bump_km_forall (fun e2 he2 => hacc e2 (List.mem_cons_of_mem _ he2)) hm e hmem

lemma addListRRF_km_forall {P : String → Memory → Prop} {k : ℚ} :
    ∀ {rank : Nat} {xs : List ScoredMemory} {acc : List (String × ℚ × Memory)},
      (∀ e ∈ acc, P e.1 e.2.2) → (∀ sm ∈ xs, P sm.memory.id sm.memory) →
      ∀ e ∈ addListRRF k rank xs acc, P e.1 e.2.2
  | _, [], acc, hacc, _, e, he => hacc e he
  | rank, sm :: rest, acc, hacc, hxs, e, he => by
    unfold addListRRF at he
    refine addListRRF_km_forall ?_ (fun x hx => hxs x (List.mem_cons_of_mem _ hx)) e he
    exact bump_km_forall hacc (hxs sm (List.mem_cons_self _ _))

lemma bump_keys_subset :
    ∀ {acc : List (String × ℚ × Memory)} {id : String} {m : Memory} {c : ℚ} {x : String},
      x ∈ (bump acc id m c).map Prod.fst → x ∈ acc.map Prod.fst ∨ x = id
  | [], id, m, c, x, hx => by
    unfold bump at hx
    simp only [List.map_singleton, List.mem_singleton] at hx
    exact Or.inr hx
  | (i, s, mm) :: rest, id, m, c, x, hx => by
    unfold bump at hx
    by_cases hi : i = id
    · rw [if_pos hi] at hx
      exact Or.inl hx
    · rw [if_neg hi] at hx
      simp only [List.map_cons, List.mem_cons] at hx
      rcases hx with rfl | hmem
      · exact Or.inl (by simp)
      · rcases bump_keys_subset hmem with h2 | h2
        · exact Or.inl (by simp [h2])
        · exact Or.inr h2

lemma bump_keys_nodup :
    ∀ {acc : List (String × ℚ × Memory)} {id : String} {m : Memory} {c : ℚ},
      (acc.map Prod.fst).Nodup → ((bump acc id m c).map Prod.fst).Nodup
  | [], id, m, c, _ => by
    unfold bump
    exact List.nodup_singleton _
  | (i, s, mm) :: rest, id, m, c, h => by
    unfold bump
    simp only [List.map_cons, List.nodup_cons] at h
    by_cases hi : i = id
    · rw [if_pos hi]
      simp only [List.map_cons, List.nodup_cons]
      exact h
    · rw [if_neg hi]
      simp only [List.map_cons, List.nodup_cons]
      refine ⟨?_, bump_keys_nodup h.2⟩
      intro hmem
      rcases bump_keys_subset hmem with h2 | h2
      · exact h.1 h2
      · exact hi h2

lemma addListRRF_keys_nodup {k : ℚ} :
    ∀ {rank : Nat} {xs : List ScoredMemory} {acc : List (String × ℚ × Memory)},
      (acc.map Prod.fst).Nodup → ((addListRRF k rank xs acc).map Prod.fst).Nodup
  | _, [], acc, h => h
  | rank, sm :: rest, acc, h => by
    unfold addListRRF
    exact addListRRF_keys_nodup (bump_keys_nodup h)

lemma alistScore_of_mem :
    ∀ {acc : List (String × ℚ × Memory)},
      (acc.map Prod.fst).Nodup → ∀ e ∈ acc, alistScore acc e.1 = e.2.1
  | [], _, e, he => by cases he
  | (i, s, mm) :: rest, h, e, he => by
    simp only [List.map_cons, List.nodup_cons] at h
    unfold alistScore
    rcases List.mem_cons.mp he with rfl | hmem
    · rw [if_pos rfl]
    · have hne : i ≠ e.1 := by
        intro hcontra
        exact h.1 (hcontra ▸ List.mem_map.mpr ⟨e, hmem, rfl⟩)
      rw [if_neg hne]
      exact alistScore_of_mem h.2 e hmem

lemma assignRanks_ids :
    ∀ (n : Nat) (l : List ScoredMemory),
      (assignRanks n l).map (fun r => r.memory.id) = l.map (fun sm => sm.memory.id)
  | n, [] => rfl
  | n, sm :: rest => by
    unfold assignRanks
    simp only [List.map_cons]
    rw [assignRanks_ids]

lemma assignRanks_pairwise :
    ∀ {n : Nat} {l : List ScoredMemory},
      List.Pairwise scoreOrder l →
      List.Pairwise (fun a b : MemorySearchResult => b.score ≤ a.score) (assignRanks n l)
  | n, [], _ => List.Pairwise.nil
  | n, sm :: rest, h => by
    rw [List.pairwise_cons] at h
    unfold assignRanks
    rw [List.pairwise_cons]
    refine ⟨?_, assignRanks_pairwise h.2⟩
    intro r hr
    obtain ⟨sm2, hsm2, _, hscore⟩ := assignRanks_mem hr
    rw [hscore]
    exact h.1 sm2 hsm2

/-- C3 (amended): every `hybrid_search` result's fused score is the sum, over
the three source lists (vector, FTS, graph), of `1/(rrf_k + r)` over every
occurrence of its memory id at 1-based rank `r` in that list (the graph list
can contain the same id more than once, and each occurrence contributes);
the returned list is sorted by fused score descending and contains no two
results with the same memory id. -/
theorem hybrid_search_rrf_spec (store : Store) (assocs : List Association)
    (fts vec : Option (List (String × ℚ))) (query : String) (config : SearchConfig) :
    (∀ r ∈ hybrid_search store assocs fts vec query config,
      r.score
        = occSum config.rrf_k 0 (vectorPass store vec) r.memory.id
        + occSum config.rrf_k 0 (ftsPass store fts) r.memory.id
        + occSum config.rrf_k 0 (graphPass store assocs query config) r.memory.id) ∧
    List.Pairwise (fun a b => b.score ≤ a.score)
      (hybrid_search store assocs fts vec query config) ∧
    ((hybrid_search store assocs fts vec query config).map
      (fun r => r.memory.id)).Nodup := by
  have hbase : (([] : List (String × ℚ × Memory)).map Prod.fst).Nodup := by simp
  have hkeys : ((addListRRF config.rrf_k 0 (graphPass store assocs query config)
      (addListRRF config.rrf_k 0 (ftsPass store fts)
        (addListRRF config.rrf_k 0 (vectorPass store vec) []))).map Prod.fst).Nodup :=
    addListRRF_keys_nodup (addListRRF_keys_nodup (addListRRF_keys_nodup hbase))
  have hco : ∀ e ∈ addListRRF config.rrf_k 0 (graphPass store assocs query config)
      (addListRRF config.rrf_k 0 (ftsPass store fts)
        (addListRRF config.rrf_k 0 (vectorPass store vec) [])),
      e.2.2.id = e.1 := by
    refine @addListRRF_km_forall (fun key mem => mem.id = key) config.rrf_k 0 _ _
      ?_ (fun sm _ => rfl)
    refine @addListRRF_km_forall (fun key mem => mem.id = key) config.rrf_k 0 _ _
      ?_ (fun sm _ => rfl)
    refine @addListRRF_km_forall (fun key mem => mem.id = key) config.rrf_k 0 _ _
      ?_ (fun sm _ => rfl)
    intro e he
    cases he
  have hids_fused : ((addListRRF config.rrf_k 0 (graphPass store assocs query config)
      (addListRRF config.rrf_k 0 (ftsPass store fts)
        (addListRRF config.rrf_k 0 (vectorPass store vec) []))).map
          (fun p => (⟨p.2.2, p.2.1⟩ : ScoredMemory))).map (fun sm => sm.memory.id)
      = (addListRRF config.rrf_k 0 (graphPass store assocs query config)
          (addListRRF config.rrf_k 0 (ftsPass store fts)
            (addListRRF config.rrf_k 0 (vectorPass store vec) []))).map Prod.fst := by
    rw [List.map_map]
    exact List.map_congr_left (fun e he => hco e he)
  refine ⟨?_, ?_, ?_⟩
  · intro r hr
    unfold hybrid_search at hr
    have h1 := List.mem_filter.mp (List.take_subset _ _ hr)
    obtain ⟨sm, hsm_mem, hmem_eq, hscore_eq⟩ := assignRanks_mem h1.1
    unfold reciprocal_rank_fusion at hsm_mem
    rw [List.mem_insertionSort] at hsm_mem
    obtain ⟨e, heA, hsm_eq⟩ := List.mem_map.mp hsm_mem
    have hscoreA : alistScore (addListRRF config.rrf_k 0 (graphPass store assocs query config)
        (addListRRF config.rrf_k 0 (ftsPass store fts)
          (addListRRF config.rrf_k 0 (vectorPass store vec) []))) e.1 = e.2.1 :=
      alistScore_of_mem hkeys e heA
    rw [addListRRF_score, addListRRF_score, addListRRF_score] at hscoreA
    have halist0 : alistScore [] e.1 = 0 := rfl
    rw [halist0, zero_add] at hscoreA
    have hrid : r.memory.id = e.1 := by
      rw [hmem_eq, ← hsm_eq]
      exact hco e heA
    have hrscore : r.score = e.2.1 := by
      rw [hscore_eq, ← hsm_eq]
    rw [hrid, hrscore, ← hscoreA]
  · unfold hybrid_search
    have hsorted : List.Pairwise scoreOrder
        (reciprocal_rank_fusion (vectorPass store vec) (ftsPass store fts)
          (graphPass store assocs query config) config.rrf_k) := by
      unfold reciprocal_rank_fusion
      exact List.sorted_insertionSort scoreOrder _
    exact ((assignRanks_pairwise hsorted).filter _).sublist (List.take_sublist _ _)
  · unfold hybrid_search
    have hnodup_sorted : ((reciprocal_rank_fusion (vectorPass store vec) (ftsPass store fts)
        (graphPass store assocs query config) config.rrf_k).map
          (fun sm => sm.memory.id)).Nodup := by
      unfold reciprocal_rank_fusion
      have hperm := (List.perm_insertionSort scoreOrder
        ((addListRRF config.rrf_k 0 (graphPass store assocs query config)
          (addListRRF config.rrf_k 0 (ftsPass store fts)
            (addListRRF config.rrf_k 0 (vectorPass store vec) []))).map
              (fun p => (⟨p.2.2, p.2.1⟩ : ScoredMemory)))).map (fun sm => sm.memory.id)
      rw [hperm.nodup_iff, hids_fused]
      exact hkeys
    have hnodup_assign : ((assignRanks 0
        (reciprocal_rank_fusion (vectorPass store vec) (ftsPass store fts)
          (graphPass store assocs query config) config.rrf_k)).map
            (fun r => r.memory.id)).Nodup := by
      rw [assignRanks_ids]
      exact hnodup_sorted
    refine List.Nodup.sublist ?_ hnodup_assign
    exact List.Sublist.map _ ((List.take_sublist _ _).trans (List.filter_sublist _))

/-- Concrete check of `hybrid_search_rrf_spec` on a single FTS hit: the
returned score `1/61` equals its occurrence sum. -/
theorem hybrid_search_rrf_spec_witness :
    (⟨memA, 1/61, 1⟩ : MemorySearchResult).score
      = occSum defaultSearchConfig.rrf_k 0 (vectorPass [memA] none)
          (⟨memA, 1/61, 1⟩ : MemorySearchResult).memory.id
      + occSum defaultSearchConfig.rrf_k 0 (ftsPass [memA] (some [("a", 1)]))
          (⟨memA, 1/61, 1⟩ : MemorySearchResult).memory.id
      + occSum defaultSearchConfig.rrf_k 0 (graphPass [memA] [] "x" defaultSearchConfig)
          (⟨memA, 1/61, 1⟩ : MemorySearchResult).memory.id :=
  (hybrid_search_rrf_spec [memA] [] (some [("a", 1)]) none "x" defaultSearchConfig).1
    ⟨memA, 1/61, 1⟩ (by
      norm_num [hybrid_search, reciprocal_rank_fusion, assignRanks, addListRRF, bump,
        vectorPass, ftsPass, collectByLoad, graphPass, get_high_importance, load,
        defaultSearchConfig, memA, List.insertionSort, List.orderedInsert,
        List.filter_cons, List.find?])

/-- First memory of the duplicate-occurrence example (importance `9/10`,
content matching query `"q"`). -/
def memCexA : Memory := ⟨"a", "q", .Fact, 9/10, 0, 2, 0, 0, none, none, false⟩

/-- Second memory of the duplicate-occurrence example. -/
def memCexB : Memory := ⟨"b", "q", .Fact, 9/10, 0, 1, 0, 0, none, none, false⟩

/-- Two-memory store with a `related_to` edge used to exhibit duplicate graph
occurrences: both memories match query `"q"` with importance `9/10`. -/
def cexStore : Store := [memCexA, memCexB]

/-- The single association of the duplicate-occurrence example. -/
def cexAssocs : List Association := [⟨"x", "a", "b", .RelatedTo, 1/2, 0⟩]

/-- C3 counterexample: with both seeds matching the query, the graph list is
`[a, b, b, a]`, so memory `a` occurs at ranks 1 and 4 and its fused score is
`1/1 + 1/4 = 5/4` (with `rrf_k = 0`), not the `1/1 = 1` that the claim's
one-rank-per-list formula gives. -/
theorem hybrid_search_rank_claim_counterexample :
    ((hybrid_search cexStore cexAssocs none none "q" ⟨50, 0, 0, 2⟩).map
        (fun r => (r.memory.id, r.score)))
      = [("a", 5/4), ("b", 5/6)] ∧
    rankContribution 0 (vectorPass cexStore none) "a"
      + rankContribution 0 (ftsPass cexStore none) "a"
      + rankContribution 0 (graphPass cexStore cexAssocs "q" ⟨50, 0, 0, 2⟩) "a" = 1 ∧
    ((5 : ℚ)/4) ≠ 1 := by
  have hseeds : get_high_importance cexStore (4/5) 20 = [memCexA, memCexB] := by
    norm_num [get_high_importance, cexStore, memCexA, memCexB, List.insertionSort,
      List.orderedInsert, importanceOrder, List.filter_cons]
  have hmatch : seedMatchesQuery "q" "q" = true := by
    simp [seedMatchesQuery, splitWhitespaceTerms, splitWsAux, lowerString, lowerChar,
      statusWhitespace, listContains, List.isPrefixOf]
  have htrav1 : traverse_graph cexStore cexAssocs "a" 2 [⟨memCexA, 9/10⟩]
      = [⟨memCexA, 9/10⟩, ⟨memCexB, 9/20⟩] := by
    simp [traverse_graph, traverseFuel, assocIdList, cexAssocs, traverseLoop,
      stepAssocs, get_associations, relatedIdOf, expandQueue, typeMultiplier, load,
      cexStore, memCexA, memCexB, List.find?, List.filter_cons]
    norm_num
  have htrav2 : traverse_graph cexStore cexAssocs "b" 2
        [⟨memCexA, 9/10⟩, ⟨memCexB, 9/20⟩, ⟨memCexB, 9/10⟩]
      = [⟨memCexA, 9/10⟩, ⟨memCexB, 9/20⟩, ⟨memCexB, 9/10⟩, ⟨memCexA, 9/20⟩] := by
    simp [traverse_graph, traverseFuel, assocIdList, cexAssocs, traverseLoop,
      stepAssocs, get_associations, relatedIdOf, expandQueue, typeMultiplier, load,
      cexStore, memCexA, memCexB, List.find?, List.filter_cons]
    norm_num
  have hgraph : graphPass cexStore cexAssocs "q" ⟨50, 0, 0, 2⟩
      = [⟨memCexA, 9/10⟩, ⟨memCexB, 9/20⟩, ⟨memCexB, 9/10⟩, ⟨memCexA, 9/20⟩] := by
    unfold graphPass
    rw [hseeds, List.foldl_cons, List.foldl_cons, List.foldl_nil]
    simp only [show memCexA.content = "q" from rfl, show memCexB.content = "q" from rfl,
      show memCexA.id = "a" from rfl, show memCexB.id = "b" from rfl,
      show memCexA.importance = 9/10 from rfl, show memCexB.importance = 9/10 from rfl,
      hmatch, if_true, List.nil_append]
    rw [htrav1]
    simp only [List.append_eq, List.cons_append, List.nil_append]
    rw [htrav2]
  refine ⟨?_, ?_, by norm_num⟩
  · rw [hybrid_search, hgraph]
    simp [reciprocal_rank_fusion, assignRanks, addListRRF, bump, vectorPass,
      ftsPass, List.insertionSort, List.orderedInsert, scoreOrder, memCexA, memCexB]
    norm_num [assignRanks, List.filter_cons]
  · rw [hgraph]
    simp [rankContribution, vectorPass, ftsPass, List.findIdx?, memCexA]

/-! ## Cron-expression scheduling (modelled from the spec)

The repository's `src/tools/cron.rs` validates a 5-field `cron_expr`
(`'cron_expr' must have exactly 5 fields`), stores it on `CronConfig`, and
reads `scheduler.cron_timezone_label()`, but the `src/cron/scheduler.rs`
present under `src/` handles only `interval_secs`: the scheduler-side
consumer of `cron_expr` is code of this repository that is not under `src/`.
It is therefore modelled here from the spec (§4.I step 2: "If `cron_expr`
set: next fire = next cron occurrence"; §6: "Standard 5-field UTC cron
(minute hour dom month dow)"). -/

/-- Modelled from the spec: a parsed 5-field cron expression, one
allowed-value set per field (minute 0-59, hour 0-23, day of month 1-31,
month 1-12, day of week 0-6); a `*` field is the full range. -/
structure CronExpr where
  minutes : List Nat
  hours : List Nat
  daysOfMonth : List Nat
  months : List Nat
  daysOfWeek : List Nat
deriving DecidableEq, Repr

/-- Modelled from the spec: UTC civil date `(year, month, day)` of a day
count since 1970-01-01 (the standard era-based civil-calendar algorithm). -/
def civilFromDays (z : Nat) : Nat × Nat × Nat :=
  let z2 := z + 719468
  let era := z2 / 146097
  let doe := z2 % 146097
  let yoe := (doe - doe / 1460 + doe / 36524 - doe / 146096) / 365
  let doy := doe - (365 * yoe + yoe / 4 - yoe / 100)
  let mp := (5 * doy + 2) / 153
  let d := doy - (153 * mp + 2) / 5 + 1
  let m := if mp < 10 then mp + 3 else mp - 9
  let y := yoe + era * 400 + (if m ≤ 2 then 1 else 0)
  (y, m, d)

/-- Modelled from the spec: whether UTC minute `tMin` (minutes since the
epoch) satisfies all five fields of the expression; 1970-01-01 was a
Thursday, hence the `+ 4` in the day-of-week computation. -/
def cronMatches (e : CronExpr) (tMin : Nat) : Bool :=
  e.minutes.contains (tMin % 60) && e.hours.contains ((tMin / 60) % 24)
    && e.daysOfMonth.contains (civilFromDays (tMin / 1440)).2.2
    && e.months.contains (civilFromDays (tMin / 1440)).2.1
    && e.daysOfWeek.contains ((tMin / 1440 + 4) % 7)

/-- Modelled from the spec: linear scan for the first matching minute at or
after `t`, with fuel bounding the search horizon. -/
def nextCronAux (e : CronExpr) : Nat → Nat → Option Nat
  | 0, _ => none
  | fuel + 1, t => if cronMatches e t then some t else nextCronAux e fuel (t + 1)

/-- Modelled from the spec: the cron job record carrying either a parsed
5-field expression or an interval (spec §3: "either `cron_expr` (5-field
cron) or `interval_secs`"). -/
structure CronJobSpec where
  id : String
  cron_expr : Option CronExpr
  interval_secs : Nat
deriving DecidableEq, Repr

/-- Modelled from the spec: the scheduler's next fire time in unix seconds.
When `cron_expr` is set, it is the next UTC cron occurrence (second 0 of the
first matching minute strictly after the current minute); otherwise the
interval schedule of `start_timer` applies. -/
def scheduler_next_fire (job : CronJobSpec) (now_unix fuel : Nat) : Option Nat :=
  match job.cron_expr with
  | some e => (nextCronAux e fuel (now_unix / 60 + 1)).map (fun m => 60 * m)
  | none => some (now_unix + first_tick_delay job.interval_secs now_unix)

lemma nextCronAux_spec (e : CronExpr) :
    ∀ (fuel start r : Nat), nextCronAux e fuel start = some r →
      start ≤ r ∧ cronMatches e r = true ∧
      ∀ u, start ≤ u → u < r → cronMatches e u = false
  | 0, start, r, h => by cases h
  | fuel + 1, start, r, h => by
    unfold nextCronAux at h
    by_cases hm : cronMatches e start
    · rw [if_pos hm] at h
      obtain rfl := Option.some.injEq _ _ ▸ h
      refine ⟨le_refl _, hm, ?_⟩
      intro u h1 h2
      omega
    · rw [if_neg hm] at h
      obtain ⟨h1, h2, h3⟩ := nextCronAux_spec e fuel (start + 1) r h
      refine ⟨by omega, h2, ?_⟩
      intro u hu1 hu2
      rcases Nat.eq_or_lt_of_le hu1 with rfl | hlt
      · exact Bool.eq_false_iff.mpr hm
      · exact h3 u (by omega) hu2

/-- C4: a job may carry either a 5-field cron expression or an interval, and
when `cron_expr` is set the scheduler's next fire time is the next
occurrence of the standard 5-field UTC cron expression: it is a whole UTC
minute strictly after now whose minute/hour/dom/month/dow all match, and no
earlier minute after now matches. -/
theorem cron_expr_next_fire (job : CronJobSpec) (e : CronExpr) (now_unix fuel : Nat)
    (hexpr : job.cron_expr = some e) (r : Nat)
    (hr : scheduler_next_fire job now_unix fuel = some r) :
    60 ∣ r ∧ now_unix < r ∧ cronMatches e (r / 60) = true ∧
    ∀ u, now_unix / 60 < u → 60 * u < r → cronMatches e u = false := by
  unfold scheduler_next_fire at hr
  rw [hexpr] at hr
  obtain ⟨m, hm, rfl⟩ := Option.map_eq_some'.mp hr
  obtain ⟨h1, h2, h3⟩ := nextCronAux_spec e fuel (now_unix / 60 + 1) m hm
  have hdm := Nat.div_add_mod now_unix 60
  have hmod : now_unix % 60 < 60 := Nat.mod_lt _ (by omega)
  refine ⟨Dvd.intro _ rfl, ?_, ?_, ?_⟩
  · have : 60 * (now_unix / 60 + 1) ≤ 60 * m := by
      exact Nat.mul_le_mul_left _ h1
    omega
  · rw [Nat.mul_div_cancel_left m (by omega : 0 < 60)]
    exact h2
  · intro u hu1 hu2
    have hu3 : u < m := by omega
    exact h3 u (by omega) hu3

/-- The all-stars expression `* * * * *`. -/
def everyMinuteExpr : CronExpr :=
  ⟨List.range 60, List.range 24, List.range' 1 31, List.range' 1 12, List.range 7⟩

/-- Concrete check of `cron_expr_next_fire`: from the epoch, `* * * * *`
next fires at unix second 60 (minute 1 = 1970-01-01 00:01 UTC). -/
theorem cron_expr_next_fire_witness :
    (60 : Nat) ∣ 60 ∧ (0 : Nat) < 60 ∧ cronMatches everyMinuteExpr (60 / 60) = true ∧
    ∀ u, 0 / 60 < u → 60 * u < 60 → cronMatches everyMinuteExpr u = false :=
  cron_expr_next_fire ⟨"job", some everyMinuteExpr, 3600⟩ everyMinuteExpr 0 5 rfl 60
    (by decide)
